import Mathlib

/-!
Verification of the nocodb front-end slice: the formula-editor component
(cursor-context scanning, suggestion ranking, validator and parsed-tree
plumbing) and the collaborator-management components (role lists and
collaborator filtering).  All definitions below are shallow embeddings of
the TypeScript source; strings are modelled as `List Char`, machine
numbers as `Nat`/`Int`, and JavaScript's fallible or stateful pieces as
`Option`/explicit state records.  External SDK calls (the formula SDK,
Monaco editor APIs, the autocomplete tree) are abstracted as function
parameters, since their code is not part of this repository slice.
-/

namespace NocoDb

/-- Named characters, so that quote and brace characters never appear as
raw literals in the file. -/
def chQuoteS : Char := Char.ofNat 39

def chQuoteD : Char := Char.ofNat 34

def chLBrace : Char := Char.ofNat 123

def chRBrace : Char := Char.ofNat 125

def chBackslash : Char := Char.ofNat 92

/-- JavaScript `\w` character class: ASCII letters, digits and underscore. -/
def isWordChar (c : Char) : Bool := c.isAlphanum || c == '_'

/-- Model of JavaScript `\s` for the formula scanning (whitespace). -/
def jsIsSpace (c : Char) : Bool := c.isWhitespace

/-! ## Suggestion model (formula editor)

The component builds suggestion entries of three kinds: columns,
functions and binary operators.  Fields irrelevant to the verified
properties (icons, descriptions, documentation links) are omitted. -/

inductive SugType where
  | column : SugType
  | function : SugType
  | op : SugType
deriving DecidableEq

/-- A suggestion entry.  `unsupported` is `false` for columns and
operators, mirroring the absent (undefined, hence falsy) field in the
TypeScript objects. -/
structure Suggestion where
  text : List Char
  type : SugType
  unsupported : Bool
deriving DecidableEq

/-- `sortOrder` map from the component (`column: 0, function: 1, op: 2`). -/
def sortOrder : SugType → Nat
  | .column => 0
  | .function => 1
  | .op => 2

/-! ## Model of JavaScript `Array.prototype.sort`

`Array.prototype.sort` is required to be stable; we model it as a stable
insertion sort driven by the sign of the user comparator.  Only the
positivity of the comparator is ever inspected, which matches how an
element is moved past another exactly when `cmp(a, b) > 0`. -/

def insertCmp (cmp : α → α → Int) (x : α) : List α → List α
  | [] => [x]
  | y :: ys => if 0 < cmp x y then y :: insertCmp cmp x ys else x :: y :: ys

/-- Stable sort: earlier elements are inserted in front of equal later
ones. -/
def jsSort (cmp : α → α → Int) : List α → List α
  | [] => []
  | x :: xs => insertCmp cmp x (jsSort cmp xs)

/-- Comparator of the default suggestion sort: `sortOrder` difference. -/
def cmpType (a b : Suggestion) : Int := (sortOrder a.type : Int) - (sortOrder b.type : Int)

/-- Comparator of the parenthesis-context re-sort: columns first. -/
def cmpColFirst (a b : Suggestion) : Int :=
  if a.type == .column then -1 else if b.type == .column then 1 else 0

/-- Comparator of `suggestionsList`: unsupported entries moved to the end. -/
def cmpUnsupported (a b : Suggestion) : Int :=
  if a.unsupported && !b.unsupported then 1
  else if !a.unsupported && b.unsupported then -1
  else 0

/-! ## isCursorInsideString (part_001 lines 476-502) -/

/-- Loop body of `isCursorInsideString`: scans characters keeping single
quote, double quote and escape state exactly as in the source. -/
def insideStringAux : List Char → Bool → Bool → Bool → Bool × Bool
  | [], inS, inD, _ => (inS, inD)
  | c :: cs, inS, inD, esc =>
    if esc then insideStringAux cs inS inD false
    else if c == chBackslash then insideStringAux cs inS inD true
    else if c == chQuoteS && !inD then insideStringAux cs (!inS) inD false
    else if c == chQuoteD && !inS then insideStringAux cs inS (!inD) false
    else insideStringAux cs inS inD false

/-- `isCursorInsideString(text, offset)` from the component: scans the
prefix of length `offset` and reports whether a single- or double-quoted
string is still open. -/
def isCursorInsideString (t : List Char) (offset : Nat) : Bool :=
  let r := insideStringAux (t.take offset) false false false
  r.1 || r.2

/-- String-scanning state, used by the specification-side scanner. -/
inductive StrState where
  | outside : StrState
  | insideSingle : StrState
  | insideDouble : StrState
deriving DecidableEq

/-- Specification-side scanner, written from the claim's words: a
backslash escapes the character that follows it, a single quote inside an
open double-quoted string does not toggle string state, and a double
quote inside an open single-quoted string does not toggle it. -/
def specStringScan : List Char → StrState → StrState
  | [], st => st
  | c :: cs, st =>
    if c == chBackslash then
      match cs with
      | [] => st
      | _ :: cs2 => specStringScan cs2 st
    else if c == chQuoteS then
      match st with
      | .outside => specStringScan cs .insideSingle
      | .insideSingle => specStringScan cs .outside
      | .insideDouble => specStringScan cs .insideDouble
    else if c == chQuoteD then
      match st with
      | .outside => specStringScan cs .insideDouble
      | .insideDouble => specStringScan cs .outside
      | .insideSingle => specStringScan cs .insideSingle
    else specStringScan cs st

/-- Encode a scanner state as the component's two boolean flags. -/
def encStr : StrState → Bool × Bool
  | .outside => (false, false)
  | .insideSingle => (true, false)
  | .insideDouble => (false, true)

/-! ## isCursorBetweenParenthesis (part_001 lines 455-473) -/

/-- `isCursorBetweenParenthesis` from the component.  The editor cursor
position is `(lineNumber, column)` (column is 1-based, as in Monaco); the
current line's content is `line` (`none` when unavailable; the source's
`if (!line)` also treats the empty line as unavailable, which we keep). -/
def isCursorBetweenParenthesis (pos : Option (Nat × Nat)) (line : Option (List Char)) : Bool :=
  match pos with
  | none => false
  | some pc =>
    match line with
    | none => false
    | some l =>
      if l == [] then false
      else
        let cursorLine := l.take (pc.2 - 1)
        decide (cursorLine.count '(' > cursorLine.count ')')

/-! ## findEnclosingFunction (part_001 lines 288-368)

The source scans the text with the sticky regular expression
`/\b(?<!['"])(\w+)\s*\(/g`, tracking a paren balance, "child value"
markers and a (lagging) double-quote state, collects candidate function
spans on a stack, and returns the last collected span that contains the
offset.  The embedding below reproduces this scan step by step; fuel
arguments bound the loops and always exceed the number of iterations the
source's loops can perform. -/

/-- One regex match: `p` is `match.index` (start of the identifier), `q`
the end of the identifier's word run, `r` the index of the opening
parenthesis (`formulaRegex.lastIndex = r + 1`). -/
structure FMatch where
  p : Nat
  q : Nat
  r : Nat
deriving DecidableEq

/-- A stack entry of the scan (`functionData` in the source): the
captured name, `start = match.index` and `stop = functionData.end`. -/
structure FnData where
  name : List Char
  start : Nat
  stop : Nat
deriving DecidableEq

/-- Does `/\b(?<!['"])(\w+)\s*\(/` match at position `p`?  Returns the
end `q` of the word run and the index `r` of the `'('`.  The word must
start at a word boundary whose previous character is neither a word
character nor a quote (the negative lookbehind). -/
def matchAt (t : List Char) (p : Nat) : Option (Nat × Nat) :=
  match t.get? p with
  | none => none
  | some c =>
    if !isWordChar c then none
    else
      let prevOk :=
        if p == 0 then true
        else
          match t.get? (p - 1) with
          | none => true
          | some pc => !isWordChar pc && pc != chQuoteS && pc != chQuoteD
      if !prevOk then none
      else
        let q := p + ((t.drop p).takeWhile isWordChar).length
        let r := q + ((t.drop q).takeWhile jsIsSpace).length
        match t.get? r with
        | some c2 => if c2 == '(' then some (q, r) else none
        | none => none

/-- Leftmost regex match starting at or after `s` (the `exec` call of the
global regex, whose `lastIndex` is `s`). -/
def nextFormulaMatchAux (t : List Char) : Nat → Nat → Option FMatch
  | 0, _ => none
  | fuel + 1, s =>
    if s < t.length then
      match matchAt t s with
      | some qr => some ⟨s, qr.1, qr.2⟩
      | none => nextFormulaMatchAux t fuel (s + 1)
    else none

def nextFormulaMatch (t : List Char) (s : Nat) : Option FMatch :=
  nextFormulaMatchAux t (t.length + 1) s

/-- Leftmost double quote at or after `s` (the `exec` call of
`quoteRegex`). -/
def nextQuoteAux (t : List Char) : Nat → Nat → Option Nat
  | 0, _ => none
  | fuel + 1, s =>
    match t.get? s with
    | none => none
    | some c => if c == chQuoteD then some s else nextQuoteAux t fuel (s + 1)

def nextQuote (t : List Char) (s : Nat) : Option Nat := nextQuoteAux t (t.length + 1) s

/-- The quote-tracking inner `while`: toggles `inQuote` for each double quote
before `matchIdx`, keeping `quoteRegex.lastIndex` (`qLast`).  When `exec`
fails JavaScript resets `lastIndex` to 0; when it succeeds but the quote
is at or past `matchIdx`, the quote is consumed and lost. -/
def quoteScanAux (t : List Char) (matchIdx : Nat) : Nat → Bool → Nat → Bool × Nat
  | 0, inQ, qLast => (inQ, qLast)
  | fuel + 1, inQ, qLast =>
    match nextQuote t qLast with
    | none => (inQ, 0)
    | some pos =>
      if pos < matchIdx then quoteScanAux t matchIdx fuel (!inQ) (pos + 1)
      else (inQ, pos + 1)

def quoteScan (t : List Char) (matchIdx : Nat) (inQ : Bool) (qLast : Nat) : Bool × Nat :=
  quoteScanAux t matchIdx (t.length + 1) inQ qLast

/-- The "child value" bookkeeping of the inner scan, one character step. -/
def childStep (c : Char) (i : Nat) (cvs cve : Option Nat) : Option Nat × Option Nat :=
  if cvs.isNone && (c == '(' || c == ',' || c == chLBrace) then (some i, cve)
  else if cvs.isSome && (c == '(' || c == ',' || c == chLBrace) then (some i, cve)
  else if cvs.isSome && (c == chRBrace || c == ',' || c == ')') then (none, some i)
  else (cvs, cve)

/-- The inner `for` loop of `findEnclosingFunction`, scanning from the
character after the '(' of the match.  Returns the final
`functionData.end` together with the final `childValueEnd`.  The nested
recursive call of the source is dead code: whenever `i >= offset` is
reached the paren balance is strictly positive, so the loop breaks with
`end = i + 1` first. -/
def innerScanAux (t : List Char) (offset : Nat) :
    Nat → Nat → Nat → Option Nat → Option Nat → Nat → Nat × Option Nat
  | 0, _, _, _, cve, e => (e, cve)
  | fuel + 1, i, bal, cvs, cve, e =>
    match t.get? i with
    | none => (e, cve)
    | some c =>
      if c == ')' && bal == 1 then (i + 1, cve)
      else
        let bal2 := if c == '(' then bal + 1 else if c == ')' then bal - 1 else bal
        let cc := childStep c i cvs cve
        if offset ≤ i then (i + 1, cc.2)
        else innerScanAux t offset fuel (i + 1) bal2 cc.1 cc.2 e

/-- Build the stack entry for one regex match: run the inner scan, then
apply the "child value ended before offset" end adjustment. -/
def runMatch (t : List Char) (offset : Nat) (m : FMatch) : FnData :=
  let init := m.r + 1
  let res := innerScanAux t offset (t.length + 1) init 1 none none init
  let e :=
    match res.2 with
    | some k => if k < offset then k + 1 else res.1
    | none => res.1
  { name := (t.drop m.p).take (m.q - m.p), start := m.p, stop := e }

/-- The outer `while ((match = formulaRegex.exec(text)) !== null)` loop:
stops on the first match past the offset, skips matches while `inQuote`,
and updates the lagging quote state after each processed match. -/
def scanLoopAux (t : List Char) (offset : Nat) :
    Nat → Nat → Bool → Nat → List FnData → List FnData
  | 0, _, _, _, stack => stack
  | fuel + 1, searchStart, inQ, qLast, stack =>
    match nextFormulaMatch t searchStart with
    | none => stack
    | some m =>
      if offset < m.p then stack
      else
        let stack2 := if inQ then stack else stack ++ [runMatch t offset m]
        let qs := quoteScan t m.p inQ qLast
        scanLoopAux t offset fuel (m.r + 1) qs.1 qs.2 stack2

/-- `findEnclosingFunction(text, offset)` from the component: the name of
the last stacked span `f` with `f.start ≤ offset ≤ f.stop`, if any. -/
def findEnclosingFunction (t : List Char) (offset : Nat) : Option (List Char) :=
  let stack := scanLoopAux t offset (t.length + 1) 0 false 0 []
  ((stack.filter fun f => decide (f.start ≤ offset) && decide (offset ≤ f.stop)).getLast?).map
    FnData.name

/-- A function-call token in the claim's sense, at position `p`: the
regex matches there, and the token's name is the identifier slice. -/
def fnTokenAt (t : List Char) (p : Nat) : Option (List Char) :=
  (matchAt t p).map fun qr => (t.drop p).take (qr.1 - p)

/-! ## handleInput (part_001 lines 504-547) and its helpers -/

/-- JavaScript `query.split(/\W+/)`: splits on maximal runs of non-word
characters, keeping empty fragments at the borders (`".a"` gives
`["", "a"]`, `"a."` gives `["a", ""]`, `""` gives `[""]`). -/
def jsSplitAux : Nat → List Char → List (List Char)
  | 0, l => [l.takeWhile isWordChar]
  | fuel + 1, l =>
    let w := l.takeWhile isWordChar
    let rest := l.dropWhile isWordChar
    match rest with
    | [] => [w]
    | _ :: _ => w :: jsSplitAux fuel (rest.dropWhile fun c => !isWordChar c)

def jsSplitNonWord (l : List Char) : List (List Char) := jsSplitAux (l.length + 1) l

/-- `wordToComplete`: `(getCurrentKeyword() ?? '').split(/\W+/).pop() || ''`. -/
def wordToCompleteOf (keyword : Option (List Char)) : List Char :=
  ((jsSplitNonWord (keyword.getD [])).getLast?).getD []

/-- The reactive state of the formula component touched by `handleInput`
and `selectText`.  `editorValue` stands for the Monaco model text (only
`appendText` ever edits it). -/
structure FormulaState where
  suggestion : List Suggestion
  autocomplete : Bool
  priority : Int
  selected : Int
  wordToComplete : List Char
  showFunctionList : Bool
  editorValue : List Char
deriving DecidableEq

/-- `handleInput` from the component.  `complete` abstracts
`acTree.complete` (the autocomplete tree is built outside this slice),
`keyword` abstracts Monaco's `getWordAtPosition`, and `pos`/`line` feed
`isCursorBetweenParenthesis`. -/
def handleInput (complete : List Char → List Suggestion) (text : List Char) (offset : Nat)
    (keyword : Option (List Char)) (pos : Option (Nat × Nat)) (line : Option (List Char))
    (st : FormulaState) : FormulaState :=
  if isCursorInsideString text offset then
    { st with autocomplete := false, suggestion := [] }
  else
    let wtc := wordToCompleteOf keyword
    let sug1 := jsSort cmpType (complete wtc)
    if isCursorBetweenParenthesis pos line then
      let sug2 := jsSort cmpColFirst sug1
      { st with
        suggestion := sug2
        selected := 0
        priority := -1
        wordToComplete := wtc
        autocomplete := !sug2.isEmpty }
    else
      { st with
        suggestion := sug1
        selected := 0
        priority := 1
        wordToComplete := wtc
        showFunctionList := true
        autocomplete := !sug1.isEmpty }

/-! ## selectText (part_001 lines 549-560) -/

/-- `suggestedFormulas`: the non-column entries of the current list. -/
def suggestedFormulas (l : List Suggestion) : List Suggestion :=
  l.filter fun s => s.type != .column

/-- `variableList`: the column entries of the current list. -/
def variableListOf (l : List Suggestion) : List Suggestion :=
  l.filter fun s => s.type == .column

/-- `selectText` from the component.  `appendFn` abstracts `appendText`
(the Monaco edit); `sugListLen` is `suggestionsList.value.length`.  The
source returns early — without any edit and without resetting
`selected` — when the chosen formula suggestion is unsupported; an
out-of-range column lookup makes `appendText` a no-op because of its
`!item?.text` guard. -/
def selectText (appendFn : Suggestion → FormulaState → FormulaState) (sugListLen : Nat)
    (st : FormulaState) : FormulaState :=
  let fs := suggestedFormulas st.suggestion
  let vs := variableListOf st.suggestion
  if -1 < st.selected ∧ st.selected < (sugListLen : Int) then
    if st.selected < (fs.length : Int) then
      match fs.get? st.selected.toNat with
      | none => { st with selected := 0 }
      | some item =>
        if item.unsupported then st
        else { appendFn item st with selected := 0 }
    else
      match vs.get? (st.selected + (fs.length : Int)).toNat with
      | none => { st with selected := 0 }
      | some item => { appendFn item st with selected := 0 }
  else { st with selected := 0 }

/-! ## suggestionsList (part_001 lines 112-155) -/

/-- A column of the table metadata, restricted to the fields the
suggestion construction reads. -/
structure MetaColumn where
  title : List Char
  uidt : List Char
  system : Bool
  id : List Char
deriving DecidableEq

/-- The suggestion entry built for a formula function. -/
def mkFnSuggestion (unsupportedFnList : List (List Char)) (fn : List Char) : Suggestion :=
  { text := fn ++ "()".toList, type := .function,
    unsupported := unsupportedFnList.contains fn }

/-- The suggestion entry built for a column. -/
def mkColSuggestion (c : MetaColumn) : Suggestion :=
  { text := c.title, type := .column, unsupported := false }

/-- The suggestion entry built for a binary operator. -/
def mkOpSuggestion (op : List Char) : Suggestion :=
  { text := op, type := .op, unsupported := false }

/-- The column filter inside `suggestionsList`: system link columns are
skipped, and so is the column currently being edited. -/
def keepColumn (curColId : Option (List Char)) (c : MetaColumn) : Bool :=
  if c.uidt == "LinkToAnotherRecord".toList && c.system then false
  else
    match curColId with
    | none => true
    | some i => i != c.id

/-- The concatenation the component builds before the final sort:
functions, then supported columns, then binary operators. -/
def combinedSuggestions (fns unsupportedFnList : List (List Char)) (cols : List MetaColumn)
    (curColId : Option (List Char)) (binOps : List (List Char)) : List Suggestion :=
  fns.map (mkFnSuggestion unsupportedFnList) ++
    (cols.filter (keepColumn curColId)).map mkColSuggestion ++ binOps.map mkOpSuggestion

/-- `suggestionsList`: the combined list, with unsupported functions
moved to the end by the stable sort. -/
def suggestionsList (fns unsupportedFnList : List (List Char)) (cols : List MetaColumn)
    (curColId : Option (List Char)) (binOps : List (List Char)) : List Suggestion :=
  jsSort cmpUnsupported (combinedSuggestions fns unsupportedFnList cols curColId binOps)

/-! ## formula_raw validator (part_001 lines 64-90) -/

/-- An error thrown by the SDK's `validateFormulaAndExtractTreeWithType`.
`isFormulaError` models the `instanceof FormulaError` test and
`extraKey` the (possibly absent, possibly empty and hence falsy)
`e.extra?.key`. -/
structure SdkError where
  isFormulaError : Bool
  extraKey : Option (List Char)
  message : List Char
deriving DecidableEq

/-- JavaScript `String.prototype.trim`. -/
def jsTrim (l : List Char) : List Char :=
  ((l.dropWhile Char.isWhitespace).reverse.dropWhile Char.isWhitespace).reverse

/-- The `formula_raw` validator.  `sdk` abstracts the SDK call (`none`
means it returned, `some e` that it threw `e`); `tr` abstracts the i18n
translation `t(e.extra.key, e.extra)`.  The result is `Except.error msg`
when the validator throws `new Error(msg)`. -/
def formulaRawValidator (sdk : List Char → Option SdkError) (tr : List Char → List Char)
    (formula : Option (List Char)) : Except (List Char) Unit :=
  match formula with
  | none => .error "Required".toList
  | some f =>
    if jsTrim f == [] then .error "Required".toList
    else
      match sdk f with
      | none => .ok ()
      | some e =>
        if e.isFormulaError then
          match e.extraKey with
          | some k => if k == [] then .error e.message else .error (tr k)
          | none => .error e.message
        else .error e.message

/-! ## parsedTree (part_001 lines 604-619) -/

inductive FormulaDataTypes where
  | NUMERIC : FormulaDataTypes
  | STRING : FormulaDataTypes
  | DATE : FormulaDataTypes
  | BOOLEAN : FormulaDataTypes
  | COND_EXP : FormulaDataTypes
  | UNKNOWN : FormulaDataTypes
deriving DecidableEq

/-- The tree returned by the SDK, restricted to the field the component
reads (`dataType`), plus an opaque payload so distinct trees exist. -/
structure ParsedTree where
  dataType : FormulaDataTypes
  node : List Char
deriving DecidableEq

/-- JavaScript `vModel.value.formula || vModel.value.formula_raw`:
`formula` falls back to `formula_raw` when absent or empty. -/
def jsOrOpt (a b : Option (List Char)) : Option (List Char) :=
  match a with
  | some l => if l == [] then b else some l
  | none => b

/-- The `parsedTree` computed: the SDK result, with any thrown error
replaced by an `UNKNOWN` tree. -/
def parsedTree (sdk : Option (List Char) → Except SdkError ParsedTree)
    (formula formulaRaw : Option (List Char)) : ParsedTree :=
  match sdk (jsOrOpt formula formulaRaw) with
  | .ok t => t
  | .error _ => { dataType := .UNKNOWN, node := [] }

/-! ## accessibleRoles (part_002 lines 94-100 and AccessSettings.vue
lines 150-168) -/

/-- The `findIndex` predicate of both `accessibleRoles` computations:
the role is among the keys of the user's role object (`none` when the
role object is nullish). -/
def holdsRole (userRoleKeys : Option (List (List Char))) (r : List Char) : Bool :=
  match userRoleKeys with
  | none => false
  | some ks => ks.contains r

/-- Workspace variant: the ordered role list after the first role the
current user holds, with falsy (empty) entries filtered out.
`userRoleKeys` is `Object.keys(workspaceRoles.value)` (`none` when
`workspaceRoles.value` is nullish). -/
def accessibleRolesWorkspace (ordered : List (List Char))
    (userRoleKeys : Option (List (List Char))) : List (List Char) :=
  match ordered.findIdx? (holdsRole userRoleKeys) with
  | none => []
  | some i => (ordered.drop (i + 1)).filter fun r => !r.isEmpty

/-- Base (project) variant: a super admin gets every ordered role but
the first; otherwise the roles after the first role the user holds; the
initial empty list when the user's role is not found. -/
def accessibleRolesBase (ordered : List (List Char))
    (userRoleKeys : Option (List (List Char))) (isSuper : Bool) : List (List Char) :=
  if isSuper then ordered.drop 1
  else
    match ordered.findIdx? (holdsRole userRoleKeys) with
    | none => []
    | some i => ordered.drop (i + 1)

/-! ## Collaborator filtering (part_002 lines 41-51 and
AccessSettings.vue lines 61-67) -/

/-- A workspace collaborator (part_002): both fields may be absent. -/
structure WsCollaborator where
  display_name : Option (List Char)
  email : Option (List Char)
deriving DecidableEq

/-- A base collaborator (AccessSettings.vue): `email` is mandatory. -/
structure BaseCollaborator where
  display_name : Option (List Char)
  email : List Char
deriving DecidableEq

def lowerStr (l : List Char) : List Char := l.map Char.toLower

/-- The predicate of the workspace filter (display name or email
contains the lowered search text). -/
def wsMatch (search : List Char) (c : WsCollaborator) : Bool :=
  ((c.display_name.map fun d => decide (lowerStr search <:+: lowerStr d)).getD false) ||
    ((c.email.map fun e => decide (lowerStr search <:+: lowerStr e)).getD false)

/-- `filterCollaborators` (part_002): early return of everything on an
empty search text, `[]` when the collaborator list is nullish. -/
def filterCollaborators (search : List Char) (collabs : Option (List WsCollaborator)) :
    List WsCollaborator :=
  if search == [] then collabs.getD []
  else
    match collabs with
    | none => []
    | some cs => cs.filter (wsMatch search)

/-- The predicate of the base filter. -/
def baseMatch (search : List Char) (c : BaseCollaborator) : Bool :=
  ((c.display_name.map fun d => decide (lowerStr search <:+: lowerStr d)).getD false) ||
    decide (lowerStr search <:+: lowerStr c.email)

/-- `filteredCollaborators` (AccessSettings.vue): no empty-search early
return; the filter always runs. -/
def filteredCollaborators (search : List Char) (collabs : List BaseCollaborator) :
    List BaseCollaborator :=
  collabs.filter (baseMatch search)

/-- Specification-side matching predicate, written from the claim's
words: the collaborator's display name or email contains the search text
as a case-insensitive substring. -/
def specWsMatches (search : List Char) (c : WsCollaborator) : Prop :=
  (∃ d, c.display_name = some d ∧ lowerStr search <:+: lowerStr d) ∨
    (∃ e, c.email = some e ∧ lowerStr search <:+: lowerStr e)

/-- Specification-side matching predicate for base collaborators. -/
def specBaseMatches (search : List Char) (c : BaseCollaborator) : Prop :=
  (∃ d, c.display_name = some d ∧ lowerStr search <:+: lowerStr d) ∨
    lowerStr search <:+: lowerStr c.email

instance (search : List Char) (c : WsCollaborator) : Decidable (specWsMatches search c) := by
  unfold specWsMatches
  infer_instance

instance (search : List Char) (c : BaseCollaborator) : Decidable (specBaseMatches search c) := by
  unfold specBaseMatches
  infer_instance

/-! ## Helper lemmas about the `Array.prototype.sort` model -/

theorem insertCmp_front {cmp : α → α → Int} {x : α} {l : List α}
    (h : ∀ y ∈ l, ¬0 < cmp x y) : insertCmp cmp x l = x :: l := by
  cases l with
  | nil => rfl
  | cons y ys =>
    have hy := h y (by simp)
    simp [insertCmp, hy]

theorem insertCmp_append {cmp : α → α → Int} {x : α} {as : List α} (bs : List α)
    (h : ∀ y ∈ as, 0 < cmp x y) : insertCmp cmp x (as ++ bs) = as ++ insertCmp cmp x bs := by
  induction as with
  | nil => rfl
  | cons a as ih =>
    have ha := h a (by simp)
    simp only [List.cons_append, insertCmp, if_pos ha, List.append_eq]
    rw [ih fun y hy => h y (by simp [hy])]

theorem insertCmp_perm (cmp : α → α → Int) (x : α) (l : List α) :
    (insertCmp cmp x l).Perm (x :: l) := by
  induction l with
  | nil => exact List.Perm.refl _
  | cons y ys ih =>
    by_cases h : 0 < cmp x y
    · simp only [insertCmp, if_pos h]
      exact (ih.cons y).trans (List.Perm.swap x y ys)
    · simp [insertCmp, h]

theorem mem_insertCmp {cmp : α → α → Int} {x z : α} {l : List α} :
    z ∈ insertCmp cmp x l ↔ z = x ∨ z ∈ l := by
  rw [(insertCmp_perm cmp x l).mem_iff]
  simp

theorem jsSort_perm (cmp : α → α → Int) (l : List α) : (jsSort cmp l).Perm l := by
  induction l with
  | nil => exact List.Perm.refl _
  | cons x xs ih =>
    exact (insertCmp_perm cmp x (jsSort cmp xs)).trans (ih.cons x)

theorem insertCmp_pairwise {cmp : α → α → Int} {key : α → Nat}
    (hcmp : ∀ a b, 0 < cmp a b ↔ key b < key a) {x : α} {l : List α}
    (h : l.Pairwise fun a b => key a ≤ key b) :
    (insertCmp cmp x l).Pairwise fun a b => key a ≤ key b := by
  induction l with
  | nil => simp [insertCmp]
  | cons y ys ih =>
    rcases List.pairwise_cons.mp h with ⟨hy, hys⟩
    by_cases hp : 0 < cmp x y
    · simp only [insertCmp, if_pos hp]
      refine List.pairwise_cons.mpr ⟨?_, ih hys⟩
      intro z hz
      rcases mem_insertCmp.mp hz with hzx | hz
      · rw [hzx]
        exact le_of_lt ((hcmp x y).mp hp)
      · exact hy z hz
    · simp only [insertCmp, if_neg hp]
      refine List.pairwise_cons.mpr ⟨?_, h⟩
      intro z hz
      have hxy : key x ≤ key y := le_of_not_lt fun hlt => hp ((hcmp x y).mpr hlt)
      rcases List.mem_cons.mp hz with rfl | hz
      · exact hxy
      · exact hxy.trans (hy z hz)

theorem jsSort_pairwise {cmp : α → α → Int} {key : α → Nat}
    (hcmp : ∀ a b, 0 < cmp a b ↔ key b < key a) (l : List α) :
    (jsSort cmp l).Pairwise fun a b => key a ≤ key b := by
  induction l with
  | nil => simp [jsSort]
  | cons x xs ih => exact insertCmp_pairwise hcmp ih

/-- Stability with a two-valued sort key: the sorted list is the
`p`-part followed by the non-`p`-part, each in original order. -/
theorem jsSort_two_key {cmp : α → α → Int} {p : α → Bool}
    (hcmp : ∀ a b, 0 < cmp a b ↔ (p b = true ∧ p a = false)) (l : List α) :
    jsSort cmp l = l.filter p ++ l.filter fun a => !p a := by
  induction l with
  | nil => rfl
  | cons x xs ih =>
    simp only [jsSort, ih, List.filter_cons]
    by_cases hp : p x = true
    · have hfront : ∀ y ∈ xs.filter p ++ xs.filter fun a => !p a, ¬0 < cmp x y := by
        intro y _ hpos
        exact absurd hp (by simpa using ((hcmp x y).mp hpos).2)
      rw [insertCmp_front hfront]
      simp [hp]
    · have hx' : p x = false := by simpa using hp
      have hskip : ∀ y ∈ xs.filter p, 0 < cmp x y := by
        intro y hy
        exact (hcmp x y).mpr ⟨(List.mem_filter.mp hy).2, hx'⟩
      rw [insertCmp_append _ hskip]
      have hfront : ∀ y ∈ xs.filter fun a => !p a, ¬0 < cmp x y := by
        intro y hy hpos
        have : p y = true := ((hcmp x y).mp hpos).1
        have : p y = false := by simpa using (List.mem_filter.mp hy).2
        simp_all
      rw [insertCmp_front hfront]
      simp [hx']

/-- Stability with a three-valued sort key (the `sortOrder` sort). -/
theorem jsSort_three_key {cmp : α → α → Int} {key : α → Nat}
    (hcmp : ∀ a b, 0 < cmp a b ↔ key b < key a) (hk : ∀ a, key a ≤ 2) (l : List α) :
    jsSort cmp l =
      (l.filter fun a => key a == 0) ++
        (l.filter fun a => key a == 1) ++ l.filter fun a => key a == 2 := by
  induction l with
  | nil => rfl
  | cons x xs ih =>
    simp only [jsSort, ih, List.filter_cons]
    have hx := hk x
    have mem_key : ∀ (k : Nat) (y : α), y ∈ (xs.filter fun a => key a == k) → key y = k := by
      intro k y hy
      simpa using (List.mem_filter.mp hy).2
    have htri : key x = 0 ∨ key x = 1 ∨ key x = 2 := by omega
    rcases htri with h0 | h1 | h2
    · have hfront : ∀ y ∈ (xs.filter fun a => key a == 0) ++
          ((xs.filter fun a => key a == 1) ++ xs.filter fun a => key a == 2),
          ¬0 < cmp x y := by
        intro y _ hpos
        have := (hcmp x y).mp hpos
        omega
      rw [List.append_assoc, insertCmp_front hfront]
      simp [h0, ← List.append_assoc]
    · have hskip : ∀ y ∈ xs.filter fun a => key a == 0, 0 < cmp x y := by
        intro y hy
        have := mem_key 0 y hy
        exact (hcmp x y).mpr (by omega)
      have hfront : ∀ y ∈ (xs.filter fun a => key a == 1) ++ xs.filter fun a => key a == 2,
          ¬0 < cmp x y := by
        intro y hy hpos
        have := (hcmp x y).mp hpos
        rcases List.mem_append.mp hy with hy | hy
        · have := mem_key 1 y hy
          omega
        · have := mem_key 2 y hy
          omega
      rw [List.append_assoc, insertCmp_append _ hskip, insertCmp_front hfront]
      simp [h1, List.append_assoc]
    · have hskip : ∀ y ∈ (xs.filter fun a => key a == 0) ++ xs.filter fun a => key a == 1,
          0 < cmp x y := by
        intro y hy
        refine (hcmp x y).mpr ?_
        rcases List.mem_append.mp hy with hy | hy
        · have := mem_key 0 y hy
          omega
        · have := mem_key 1 y hy
          omega
      have hfront : ∀ y ∈ xs.filter fun a => key a == 2, ¬0 < cmp x y := by
        intro y hy hpos
        have := (hcmp x y).mp hpos
        have := mem_key 2 y hy
        omega
      rw [insertCmp_append _ hskip, insertCmp_front hfront]
      simp [h2]

theorem cmpUnsupported_pos (a b : Suggestion) :
    0 < cmpUnsupported a b ↔
      ((fun s : Suggestion => !s.unsupported) b = true ∧
        (fun s : Suggestion => !s.unsupported) a = false) := by
  cases ha : a.unsupported <;> cases hb : b.unsupported <;>
    simp [cmpUnsupported, ha, hb]

/-- C6: in the combined suggestion list built from all formula functions,
supported columns and binary operators, every entry for a function
reported as unsupported by the SQL dialect appears after every entry that
is not unsupported, and the relative order of entries with the same
supported/unsupported status is preserved (the sorted list is a
permutation of the combined list whose two status groups each keep their
original order). -/
theorem suggestionsList_unsupported_last
    (fns unsupportedFnList : List (List Char)) (cols : List MetaColumn)
    (curColId : Option (List Char)) (binOps : List (List Char)) :
    (suggestionsList fns unsupportedFnList cols curColId binOps).Pairwise
        (fun a b => a.unsupported = true → b.unsupported = true) ∧
      (suggestionsList fns unsupportedFnList cols curColId binOps).filter
          (fun s => !s.unsupported) =
        (combinedSuggestions fns unsupportedFnList cols curColId binOps).filter
          (fun s => !s.unsupported) ∧
      (suggestionsList fns unsupportedFnList cols curColId binOps).filter
          (fun s => s.unsupported) =
        (combinedSuggestions fns unsupportedFnList cols curColId binOps).filter
          (fun s => s.unsupported) ∧
      (suggestionsList fns unsupportedFnList cols curColId binOps).Perm
        (combinedSuggestions fns unsupportedFnList cols curColId binOps) := by
  set C := combinedSuggestions fns unsupportedFnList cols curColId binOps with hC
  have hform : suggestionsList fns unsupportedFnList cols curColId binOps =
      C.filter (fun s => !s.unsupported) ++ C.filter fun a => !(!a.unsupported) := by
    exact jsSort_two_key cmpUnsupported_pos C
  have hq : (C.filter fun a => !(!a.unsupported)) = C.filter fun s => s.unsupported :=
    List.filter_congr fun a _ => by simp
  refine ⟨?_, ?_, ?_, jsSort_perm _ _⟩
  · rw [hform, hq]
    refine List.pairwise_append.mpr ⟨?_, ?_, ?_⟩
    · refine List.pairwise_of_forall_mem_list ?_
      intro a ha _ _ habs
      have : (!a.unsupported) = true := (List.mem_filter.mp ha).2
      simp [habs] at this
    · refine List.pairwise_of_forall_mem_list ?_
      intro _ _ b hb _
      exact (List.mem_filter.mp hb).2
    · intro _ _ b hb _
      exact (List.mem_filter.mp hb).2
  · rw [hform, hq, List.filter_append]
    have h1 : (C.filter fun s => !s.unsupported).filter (fun s => !s.unsupported) =
        C.filter fun s => !s.unsupported :=
      List.filter_eq_self.mpr fun a ha => (List.mem_filter.mp ha).2
    have h2 : (C.filter fun s => s.unsupported).filter (fun s => !s.unsupported) = [] := by
      refine List.filter_eq_nil_iff.mpr ?_
      intro a ha habs
      have := (List.mem_filter.mp ha).2
      simp [this] at habs
    rw [h1, h2, List.append_nil]
  · rw [hform, hq, List.filter_append]
    have h1 : (C.filter fun s => !s.unsupported).filter (fun s => s.unsupported) = [] := by
      refine List.filter_eq_nil_iff.mpr ?_
      intro a ha habs
      have := (List.mem_filter.mp ha).2
      simp [habs] at this
    have h2 : (C.filter fun s => s.unsupported).filter (fun s => s.unsupported) =
        C.filter fun s => s.unsupported :=
      List.filter_eq_self.mpr fun a ha => (List.mem_filter.mp ha).2
    rw [h1, h2, List.nil_append]

/-! ## C2: the string-state scanner -/

theorem chSB_beq : (chQuoteS == chBackslash) = false := by decide

theorem chSS_beq : (chQuoteS == chQuoteS) = true := by decide

theorem chSD_beq : (chQuoteS == chQuoteD) = false := by decide

theorem chDB_beq : (chQuoteD == chBackslash) = false := by decide

theorem chDS_beq : (chQuoteD == chQuoteS) = false := by decide

theorem chDD_beq : (chQuoteD == chQuoteD) = true := by decide

theorem insideStringAux_spec :
    ∀ (n : Nat) (l : List Char), l.length ≤ n → ∀ st : StrState,
      insideStringAux l (encStr st).1 (encStr st).2 false = encStr (specStringScan l st) := by
  intro n
  induction n with
  | zero =>
    intro l hl st
    have : l = [] := List.length_eq_zero.mp (Nat.le_zero.mp hl)
    subst this
    simp [insideStringAux, specStringScan]
  | succ n ih =>
    intro l hl st
    cases l with
    | nil => simp [insideStringAux, specStringScan]
    | cons c cs =>
      by_cases hb : c = chBackslash
      · subst hb
        cases cs with
        | nil => cases st <;> simp [insideStringAux, specStringScan, encStr]
        | cons c2 cs2 =>
          have hlen : cs2.length ≤ n := by
            simp only [List.length_cons] at hl
            omega
          have hL : insideStringAux (chBackslash :: c2 :: cs2) (encStr st).1 (encStr st).2 false =
              insideStringAux cs2 (encStr st).1 (encStr st).2 false := by
            simp [insideStringAux]
          have hR : specStringScan (chBackslash :: c2 :: cs2) st = specStringScan cs2 st := by
            simp [specStringScan]
          rw [hL, hR]
          exact ih cs2 hlen st
      · have hlen : cs.length ≤ n := by
          simp only [List.length_cons] at hl
          omega
        by_cases hqs : c = chQuoteS
        · subst hqs
          cases st with
          | outside =>
            have hL : insideStringAux (chQuoteS :: cs) false false false =
                insideStringAux cs true false false := by
              simp [insideStringAux, chSB_beq, chSS_beq]
            have hR : specStringScan (chQuoteS :: cs) StrState.outside =
                specStringScan cs StrState.insideSingle := by
              rw [specStringScan.eq_def]
              simp [chSB_beq, chSS_beq]
            simp only [encStr] at hL ⊢
            rw [hL, hR]
            simpa [encStr] using ih cs hlen StrState.insideSingle
          | insideSingle =>
            have hL : insideStringAux (chQuoteS :: cs) true false false =
                insideStringAux cs false false false := by
              simp [insideStringAux, chSB_beq, chSS_beq]
            have hR : specStringScan (chQuoteS :: cs) StrState.insideSingle =
                specStringScan cs StrState.outside := by
              rw [specStringScan.eq_def]
              simp [chSB_beq, chSS_beq]
            simp only [encStr] at hL ⊢
            rw [hL, hR]
            simpa [encStr] using ih cs hlen StrState.outside
          | insideDouble =>
            have hL : insideStringAux (chQuoteS :: cs) false true false =
                insideStringAux cs false true false := by
              simp [insideStringAux, chSB_beq, chSS_beq, chSD_beq]
            have hR : specStringScan (chQuoteS :: cs) StrState.insideDouble =
                specStringScan cs StrState.insideDouble := by
              rw [specStringScan.eq_def]
              simp [chSB_beq, chSS_beq]
            simp only [encStr] at hL ⊢
            rw [hL, hR]
            simpa [encStr] using ih cs hlen StrState.insideDouble
        · by_cases hqd : c = chQuoteD
          · subst hqd
            cases st with
            | outside =>
              have hL : insideStringAux (chQuoteD :: cs) false false false =
                  insideStringAux cs false true false := by
                simp [insideStringAux, chDB_beq, chDS_beq, chDD_beq]
              have hR : specStringScan (chQuoteD :: cs) StrState.outside =
                  specStringScan cs StrState.insideDouble := by
                rw [specStringScan.eq_def]
                simp [chDB_beq, chDS_beq, chDD_beq]
              simp only [encStr] at hL ⊢
              rw [hL, hR]
              simpa [encStr] using ih cs hlen StrState.insideDouble
            | insideSingle =>
              have hL : insideStringAux (chQuoteD :: cs) true false false =
                  insideStringAux cs true false false := by
                simp [insideStringAux, chDB_beq, chDS_beq, chDD_beq]
              have hR : specStringScan (chQuoteD :: cs) StrState.insideSingle =
                  specStringScan cs StrState.insideSingle := by
                rw [specStringScan.eq_def]
                simp [chDB_beq, chDS_beq, chDD_beq]
              simp only [encStr] at hL ⊢
              rw [hL, hR]
              simpa [encStr] using ih cs hlen StrState.insideSingle
            | insideDouble =>
              have hL : insideStringAux (chQuoteD :: cs) false true false =
                  insideStringAux cs false false false := by
                simp [insideStringAux, chDB_beq, chDS_beq, chDD_beq]
              have hR : specStringScan (chQuoteD :: cs) StrState.insideDouble =
                  specStringScan cs StrState.outside := by
                rw [specStringScan.eq_def]
                simp [chDB_beq, chDS_beq, chDD_beq]
              simp only [encStr] at hL ⊢
              rw [hL, hR]
              simpa [encStr] using ih cs hlen StrState.outside
          · have hcB : (c == chBackslash) = false := by
              simpa using hb
            have hcS : (c == chQuoteS) = false := by
              simpa using hqs
            have hcD : (c == chQuoteD) = false := by
              simpa using hqd
            have hL : insideStringAux (c :: cs) (encStr st).1 (encStr st).2 false =
                insideStringAux cs (encStr st).1 (encStr st).2 false := by
              simp [insideStringAux, hcB, hcS, hcD]
            have hR : specStringScan (c :: cs) st = specStringScan cs st := by
              rw [specStringScan.eq_def]
              simp [hcB, hcS, hcD]
            rw [hL, hR]
            exact ih cs hlen st

/-- C2: `isCursorInsideString(text, offset)` is true exactly when
scanning the prefix before the offset (with backslash escapes, and with
quotes of one kind inert inside an open string of the other kind) ends in
an open single- or double-quoted string; and whenever it is true,
`handleInput` disables autocomplete and empties the suggestion list
instead of computing completions. -/
theorem isCursorInsideString_spec (t : List Char) (offset : Nat)
    (complete : List Char → List Suggestion) (keyword : Option (List Char))
    (pos : Option (Nat × Nat)) (line : Option (List Char)) (st : FormulaState) :
    (isCursorInsideString t offset = true ↔
      specStringScan (t.take offset) .outside ≠ .outside) ∧
      (isCursorInsideString t offset = true →
        (handleInput complete t offset keyword pos line st).autocomplete = false ∧
          (handleInput complete t offset keyword pos line st).suggestion = []) := by
  constructor
  · have h := insideStringAux_spec (t.take offset).length (t.take offset) le_rfl .outside
    unfold isCursorInsideString
    rw [show (encStr .outside).1 = false from rfl, show (encStr .outside).2 = false from rfl] at h
    rw [h]
    cases hs : specStringScan (t.take offset) .outside <;> simp [encStr]
  · intro h
    simp [handleInput, h]

/-- Witness for the conditional part of the C2 theorem, at the concrete
text consisting of a double quote followed by two letters, offset 3. -/
theorem isCursorInsideString_spec_witness :
    (handleInput (fun _ => []) (chQuoteD :: String.toList "ab") 3 none none none
        ⟨[], false, 0, 0, [], true, []⟩).suggestion = [] :=
  ((isCursorInsideString_spec (chQuoteD :: String.toList "ab") 3 (fun _ => []) none none none
      ⟨[], false, 0, 0, [], true, []⟩).2 (by decide)).2

/-! ## C4: isCursorBetweenParenthesis -/

/-- C4: `isCursorBetweenParenthesis` is true iff the cursor position and
line are available and, in the line truncated just before the cursor
column, the `'('` count strictly exceeds the `')'` count (characters
inside string literals included); it is false whenever the position or
the line content is unavailable. -/
theorem isCursorBetweenParenthesis_spec (pos : Option (Nat × Nat)) (line : Option (List Char)) :
    (isCursorBetweenParenthesis pos line = true ↔
      ∃ ln col l, pos = some (ln, col) ∧ line = some l ∧
        (l.take (col - 1)).count '(' > (l.take (col - 1)).count ')') ∧
      isCursorBetweenParenthesis none line = false ∧
      isCursorBetweenParenthesis pos none = false := by
  refine ⟨⟨?_, ?_⟩, ?_, ?_⟩
  · intro h
    match hp : pos with
    | none => simp [isCursorBetweenParenthesis, hp] at h
    | some pc =>
      match hline : line with
      | none => simp [isCursorBetweenParenthesis] at h
      | some l =>
        by_cases hl : l = []
        · subst hl
          simp [isCursorBetweenParenthesis] at h
        · refine ⟨pc.1, pc.2, l, by rw [Prod.mk.eta], rfl, ?_⟩
          simpa [isCursorBetweenParenthesis, hl] using h
  · rintro ⟨ln, col, l, rfl, rfl, hcount⟩
    by_cases hl : l = []
    · subst hl
      simp at hcount
    · simpa [isCursorBetweenParenthesis, hl] using hcount
  · simp [isCursorBetweenParenthesis]
  · cases pos <;> simp [isCursorBetweenParenthesis]

/-! ## C5: handleInput ranking -/

theorem cmpType_pos (a b : Suggestion) :
    0 < cmpType a b ↔ sortOrder b.type < sortOrder a.type := by
  unfold cmpType
  omega

theorem cmpColFirst_pos (a b : Suggestion) :
    0 < cmpColFirst a b ↔
      ((fun s : Suggestion => s.type == SugType.column) b = true ∧
        (fun s : Suggestion => s.type == SugType.column) a = false) := by
  by_cases ha : a.type = SugType.column <;> by_cases hb : b.type = SugType.column <;>
    simp [cmpColFirst, ha, hb]

theorem jsSplitNonWord_allWord (l : List Char) (h : ∀ c ∈ l, isWordChar c = true) :
    jsSplitNonWord l = [l] := by
  have ht : l.takeWhile isWordChar = l := List.takeWhile_eq_self_iff.mpr h
  have hd : l.dropWhile isWordChar = [] := List.dropWhile_eq_nil_iff.mpr h
  unfold jsSplitNonWord jsSplitAux
  rw [ht, hd]

/-- C5: after `handleInput` runs with the cursor not inside a string, the
suggestion list is (a permutation of) the autocomplete-tree completions
of the word at the cursor, ordered with every column before every
function and every function before every operator; when the cursor is
additionally between unbalanced parentheses, column suggestions are
placed at the top, the selected index is reset to 0, and the priority is
set to -1. -/
theorem handleInput_spec
    (complete : List Char → List Suggestion) (text : List Char) (offset : Nat)
    (keyword : Option (List Char)) (pos : Option (Nat × Nat)) (line : Option (List Char))
    (st : FormulaState) (h : isCursorInsideString text offset = false) :
    ((handleInput complete text offset keyword pos line st).suggestion).Perm
        (complete (wordToCompleteOf keyword)) ∧
      ((handleInput complete text offset keyword pos line st).suggestion).Pairwise
        (fun a b => sortOrder a.type ≤ sortOrder b.type) ∧
      (∀ k, keyword = some k → (∀ c ∈ k, isWordChar c = true) →
        wordToCompleteOf keyword = k) ∧
      (isCursorBetweenParenthesis pos line = true →
        ((handleInput complete text offset keyword pos line st).suggestion).Pairwise
            (fun a b => b.type = SugType.column → a.type = SugType.column) ∧
          (handleInput complete text offset keyword pos line st).selected = 0 ∧
          (handleInput complete text offset keyword pos line st).priority = -1) := by
  have hword : ∀ k, keyword = some k → (∀ c ∈ k, isWordChar c = true) →
      wordToCompleteOf keyword = k := by
    intro k hk hall
    subst hk
    simp [wordToCompleteOf, jsSplitNonWord_allWord k hall]
  have hs1 : (jsSort cmpType (complete (wordToCompleteOf keyword))).Pairwise
      (fun a b => sortOrder a.type ≤ sortOrder b.type) :=
    jsSort_pairwise cmpType_pos _
  by_cases hb : isCursorBetweenParenthesis pos line = true
  · have hsug : (handleInput complete text offset keyword pos line st).suggestion =
        jsSort cmpColFirst (jsSort cmpType (complete (wordToCompleteOf keyword))) := by
      simp [handleInput, h, hb]
    have hform := jsSort_two_key cmpColFirst_pos
      (jsSort cmpType (complete (wordToCompleteOf keyword)))
    refine ⟨?_, ?_, hword, fun _ => ⟨?_, ?_, ?_⟩⟩
    · rw [hsug]
      exact (jsSort_perm _ _).trans (jsSort_perm _ _)
    · rw [hsug, hform]
      refine List.pairwise_append.mpr ⟨hs1.filter _, hs1.filter _, ?_⟩
      intro a ha _ _
      have : (a.type == SugType.column) = true := (List.mem_filter.mp ha).2
      have : a.type = SugType.column := by simpa using this
      simp [this, sortOrder]
    · rw [hsug, hform]
      refine List.pairwise_append.mpr ⟨?_, ?_, ?_⟩
      · refine List.pairwise_of_forall_mem_list ?_
        intro a ha _ _ _
        simpa using (List.mem_filter.mp ha).2
      · refine List.pairwise_of_forall_mem_list ?_
        intro _ _ b hbm hcol
        have : (b.type == SugType.column) = false := by
          simpa using (List.mem_filter.mp hbm).2
        simp [hcol] at this
      · intro a ha _ _ _
        simpa using (List.mem_filter.mp ha).2
    · simp [handleInput, h, hb]
    · simp [handleInput, h, hb]
  · have hsug : (handleInput complete text offset keyword pos line st).suggestion =
        jsSort cmpType (complete (wordToCompleteOf keyword)) := by
      simp [handleInput, h, hb]
    refine ⟨?_, ?_, hword, fun hbt => absurd hbt hb⟩
    · rw [hsug]
      exact jsSort_perm _ _
    · rw [hsug]
      exact hs1

/-- Witness for the C5 theorem at a concrete editor state: text `1+1`
with the cursor at offset 3 (not inside a string), keyword `SU`, no
position information. -/
theorem handleInput_spec_witness :
    ((handleInput (fun w => [⟨w, SugType.function, false⟩]) (String.toList "1+1") 3
          (some (String.toList "SU")) none none ⟨[], false, 0, 0, [], true, []⟩).suggestion).Perm
      [⟨String.toList "SU", SugType.function, false⟩] := by
  have h := handleInput_spec (fun w => [⟨w, SugType.function, false⟩]) (String.toList "1+1") 3
    (some (String.toList "SU")) none none ⟨[], false, 0, 0, [], true, []⟩ (by decide)
  have hw : wordToCompleteOf (some (String.toList "SU")) = String.toList "SU" :=
    h.2.2.1 (String.toList "SU") rfl (by decide)
  simpa [hw] using h.1

/-! ## C3: the formula_raw validator -/

/-- C3: the `formula_raw` validator rejects a missing, empty or
whitespace-only formula with `Required`; for every other formula it
delegates entirely to the SDK call, succeeding iff the SDK call does not
throw; a thrown `FormulaError` carrying a (truthy) `extra.key` is
translated through i18n, every other thrown error is reported with its
own message.  No grammar or type checking happens locally: the outcome
depends only on the SDK oracle `sdk`. -/
theorem formulaRawValidator_spec (sdk : List Char → Option SdkError)
    (tr : List Char → List Char) :
    formulaRawValidator sdk tr none = .error "Required".toList ∧
      (∀ f, jsTrim f = [] →
        formulaRawValidator sdk tr (some f) = .error "Required".toList) ∧
      (∀ f, jsTrim f ≠ [] →
        ((formulaRawValidator sdk tr (some f) = .ok ()) ↔ sdk f = none)) ∧
      (∀ f e k, jsTrim f ≠ [] → sdk f = some e → e.isFormulaError = true →
        e.extraKey = some k → k ≠ [] →
        formulaRawValidator sdk tr (some f) = .error (tr k)) ∧
      (∀ f e, jsTrim f ≠ [] → sdk f = some e →
        (e.isFormulaError = false ∨ e.extraKey = none ∨ e.extraKey = some []) →
        formulaRawValidator sdk tr (some f) = .error e.message) := by
  refine ⟨rfl, ?_, ?_, ?_, ?_⟩
  · intro f hf
    simp [formulaRawValidator, hf]
  · intro f hf
    rcases hs : sdk f with _ | e
    · simp [formulaRawValidator, hf, hs]
    · constructor
      · intro h
        rw [formulaRawValidator] at h
        simp only [beq_iff_eq, hf, if_neg, hs] at h
        rcases hfe : e.isFormulaError <;> rcases hek : e.extraKey with _ | k <;>
          simp [hfe, hek] at h
        by_cases hk : k = [] <;> simp [hk] at h
      · intro h
        simp at h
  · intro f e k hf hs hfe hek hk
    simp [formulaRawValidator, hf, hs, hfe, hek, hk]
  · intro f e hf hs hcase
    rcases hcase with hfe | hek | hek
    · simp [formulaRawValidator, hf, hs, hfe]
    · rcases hfe : e.isFormulaError <;> simp [formulaRawValidator, hf, hs, hfe, hek]
    · rcases hfe : e.isFormulaError <;> simp [formulaRawValidator, hf, hs, hfe, hek]

/-- Witness for the C3 theorem: a non-blank formula whose SDK validation
succeeds is accepted, and a blank one is rejected with `Required`. -/
theorem formulaRawValidator_spec_witness :
    formulaRawValidator (fun _ => none) (fun k => k) (some (String.toList "1+1")) = .ok () ∧
      formulaRawValidator (fun _ => none) (fun k => k) (some (String.toList "  ")) =
        .error "Required".toList :=
  ⟨((formulaRawValidator_spec (fun _ => none) (fun k => k)).2.2.1 (String.toList "1+1")
      (by decide)).mpr rfl,
    (formulaRawValidator_spec (fun _ => none) (fun k => k)).2.1 (String.toList "  ") (by decide)⟩

/-! ## C7: parsedTree -/

/-- C7: the `parsedTree` computation returns exactly the tree produced by
the SDK on the current formula (`vModel.formula` falling back to
`vModel.formula_raw` when absent or empty), and when the SDK call throws
it returns an object whose `dataType` is `UNKNOWN` instead of propagating
the error. -/
theorem parsedTree_spec (sdk : Option (List Char) → Except SdkError ParsedTree)
    (formula formulaRaw : Option (List Char)) :
    (∀ t, sdk (jsOrOpt formula formulaRaw) = .ok t → parsedTree sdk formula formulaRaw = t) ∧
      (∀ e, sdk (jsOrOpt formula formulaRaw) = .error e →
        (parsedTree sdk formula formulaRaw).dataType = .UNKNOWN) ∧
      (formula = none ∨ formula = some [] → jsOrOpt formula formulaRaw = formulaRaw) ∧
      (∀ l, formula = some l → l ≠ [] → jsOrOpt formula formulaRaw = some l) := by
  refine ⟨?_, ?_, ?_, ?_⟩
  · intro t ht
    simp [parsedTree, ht]
  · intro e he
    simp [parsedTree, he]
  · rintro (rfl | rfl) <;> simp [jsOrOpt]
  · rintro l rfl hl
    simp [jsOrOpt, hl]

/-- Witness for the C7 theorem at a concrete SDK oracle: a throwing call
yields the `UNKNOWN` tree, a succeeding one yields the SDK's tree. -/
theorem parsedTree_spec_witness :
    (parsedTree (fun _ => .error ⟨false, none, []⟩) (some (String.toList "1+1"))
        none).dataType = .UNKNOWN ∧
      parsedTree (fun _ => .ok ⟨.NUMERIC, String.toList "n"⟩) (some (String.toList "1+1"))
        none = ⟨.NUMERIC, String.toList "n"⟩ :=
  ⟨(parsedTree_spec (fun _ => .error ⟨false, none, []⟩) (some (String.toList "1+1"))
      none).2.1 ⟨false, none, []⟩ rfl,
    (parsedTree_spec (fun _ => .ok ⟨.NUMERIC, String.toList "n"⟩) (some (String.toList "1+1"))
      none).1 ⟨.NUMERIC, String.toList "n"⟩ rfl⟩

/-! ## C9: collaborator filtering -/

theorem wsMatch_eq_spec (search : List Char) (c : WsCollaborator) :
    wsMatch search c = decide (specWsMatches search c) := by
  rcases c with ⟨dn, em⟩
  rcases dn with _ | d <;> rcases em with _ | e <;>
    simp [wsMatch, specWsMatches]

theorem baseMatch_eq_spec (search : List Char) (c : BaseCollaborator) :
    baseMatch search c = decide (specBaseMatches search c) := by
  rcases c with ⟨dn, em⟩
  rcases dn with _ | d <;> simp [baseMatch, specBaseMatches]

/-- C9: both collaborator filters keep exactly the collaborators whose
display name or email contains the search text as a case-insensitive
substring, in their original order (the result is the original list
filtered by that predicate), and an empty search text keeps every
collaborator unchanged. -/
theorem collaboratorFilter_spec :
    (∀ cs, filterCollaborators [] (some cs) = cs) ∧
      filterCollaborators [] none = [] ∧
      (∀ cs, filteredCollaborators [] cs = cs) ∧
      (∀ s cs, s ≠ [] →
        filterCollaborators s (some cs) = cs.filter fun c => decide (specWsMatches s c)) ∧
      (∀ s, s ≠ [] → filterCollaborators s none = []) ∧
      (∀ s cs,
        filteredCollaborators s cs = cs.filter fun c => decide (specBaseMatches s c)) := by
  refine ⟨fun cs => rfl, rfl, ?_, ?_, ?_, ?_⟩
  · intro cs
    rw [filteredCollaborators]
    refine List.filter_eq_self.mpr ?_
    intro c _
    rcases c with ⟨dn, em⟩
    have : ([] : List Char) <:+: lowerStr em := List.nil_infix
    simp [baseMatch, lowerStr, this]
  · intro s cs hs
    have hbe : (s == []) = false := by simpa using hs
    rw [filterCollaborators]
    rw [hbe]
    simp only [Bool.false_eq_true, if_false]
    exact List.filter_congr fun c _ => wsMatch_eq_spec s c
  · intro s hs
    have hbe : (s == []) = false := by simpa using hs
    rw [filterCollaborators, hbe]
    simp
  · intro s cs
    rw [filteredCollaborators]
    exact List.filter_congr fun c _ => baseMatch_eq_spec s c

/-! ## C10: selectText never inserts an unsupported function -/

/-- C10: whenever the selected index points at a formula suggestion
marked unsupported, `selectText` leaves the editor text unchanged for
every possible `appendText` behaviour, and — when the index is inside the
suggestion-list bound so the source's guard is passed — returns with the
whole state unchanged (no edit is executed and `selected` is not even
reset). -/
theorem selectText_unsupported_noop (appendFn : Suggestion → FormulaState → FormulaState)
    (sugListLen : Nat) (st : FormulaState) (h0 : 0 ≤ st.selected)
    (hitem : ∃ item, (suggestedFormulas st.suggestion).get? st.selected.toNat = some item ∧
      item.unsupported = true) :
    (selectText appendFn sugListLen st).editorValue = st.editorValue ∧
      (st.selected < (sugListLen : Int) → selectText appendFn sugListLen st = st) := by
  obtain ⟨item, hget, huns⟩ := hitem
  have hlt : st.selected.toNat < (suggestedFormulas st.suggestion).length :=
    List.get?_eq_some.mp hget |>.1
  have hltInt : st.selected < ((suggestedFormulas st.suggestion).length : Int) := by
    omega
  by_cases hguard : st.selected < (sugListLen : Int)
  · have hcond : -1 < st.selected ∧ st.selected < (sugListLen : Int) := ⟨by omega, hguard⟩
    have : selectText appendFn sugListLen st = st := by
      rw [selectText, if_pos hcond, if_pos hltInt, hget]
      simp [huns]
    exact ⟨by rw [this], fun _ => this⟩
  · have hcond : ¬(-1 < st.selected ∧ st.selected < (sugListLen : Int)) := fun h => hguard h.2
    have : selectText appendFn sugListLen st = { st with selected := 0 } := by
      rw [selectText, if_neg hcond]
    exact ⟨by rw [this], fun hg => absurd hg hguard⟩

/-- Witness for the C10 theorem: a concrete state whose selected entry is
an unsupported formula suggestion, with an `appendText` that would erase
the editor text if it ran. -/
theorem selectText_unsupported_noop_witness :
    selectText (fun _ s => { s with editorValue := [] }) 5
        ⟨[⟨String.toList "X()", SugType.function, true⟩], false, 0, 0, [], true,
          String.toList "abc"⟩ =
      ⟨[⟨String.toList "X()", SugType.function, true⟩], false, 0, 0, [], true,
        String.toList "abc"⟩ :=
  (selectText_unsupported_noop (fun _ s => { s with editorValue := [] }) 5
      ⟨[⟨String.toList "X()", SugType.function, true⟩], false, 0, 0, [], true,
        String.toList "abc"⟩ (by decide)
      ⟨⟨String.toList "X()", SugType.function, true⟩, by decide, rfl⟩).2 (by decide)

/-! ## C8: accessibleRoles -/

theorem mem_drop_get? {α : Type _} {l : List α} {i : Nat} {r : α} (h : r ∈ l.drop (i + 1)) :
    ∃ j, i < j ∧ l.get? j = some r := by
  obtain ⟨n, hn⟩ := List.mem_iff_get?.mp h
  refine ⟨i + 1 + n, by omega, ?_⟩
  rw [List.get?_eq_getElem?] at hn ⊢
  rw [List.getElem?_drop] at hn
  exact hn

/-- C8: the roles offered to collaborators are exactly roles strictly
after the current user's own (first held) role in the ordered role list;
an unfound role yields the empty list; in base access settings a super
admin receives every ordered role but the first; and (for duplicate-free
ordered lists) the user's own role is never offered. -/
theorem accessibleRoles_spec (ordered : List (List Char))
    (keys : Option (List (List Char))) :
    (∀ i, ordered.findIdx? (holdsRole keys) = some i →
      ∀ r ∈ accessibleRolesWorkspace ordered keys, ∃ j, i < j ∧ ordered.get? j = some r) ∧
      (ordered.findIdx? (holdsRole keys) = none →
        accessibleRolesWorkspace ordered keys = []) ∧
      accessibleRolesBase ordered keys true = ordered.drop 1 ∧
      (∀ i, ordered.findIdx? (holdsRole keys) = some i →
        ∀ r ∈ accessibleRolesBase ordered keys false, ∃ j, i < j ∧ ordered.get? j = some r) ∧
      (ordered.findIdx? (holdsRole keys) = none →
        accessibleRolesBase ordered keys false = []) ∧
      (∀ i own, ordered.Nodup → ordered.findIdx? (holdsRole keys) = some i →
        ordered.get? i = some own →
        own ∉ accessibleRolesWorkspace ordered keys ∧
          own ∉ accessibleRolesBase ordered keys false) := by
  have hws : ∀ i, ordered.findIdx? (holdsRole keys) = some i →
      ∀ r ∈ accessibleRolesWorkspace ordered keys, ∃ j, i < j ∧ ordered.get? j = some r := by
    intro i hi r hr
    rw [accessibleRolesWorkspace, hi] at hr
    exact mem_drop_get? (List.mem_of_mem_filter hr)
  have hbase : ∀ i, ordered.findIdx? (holdsRole keys) = some i →
      ∀ r ∈ accessibleRolesBase ordered keys false, ∃ j, i < j ∧ ordered.get? j = some r := by
    intro i hi r hr
    rw [accessibleRolesBase, if_neg (by simp)] at hr
    rw [hi] at hr
    exact mem_drop_get? hr
  have hown : ∀ (i : Nat) (own : List Char), ordered.Nodup →
      ordered.findIdx? (holdsRole keys) = some i → ordered.get? i = some own →
      ∀ j, i < j → ordered.get? j = some own → False := by
    intro i own hnd _ hgi j hij hgj
    rw [List.get?_eq_getElem?] at hgi hgj
    have hlen : i < ordered.length := by
      cases Nat.lt_or_ge i ordered.length with
      | inl hlt => exact hlt
      | inr hge =>
        rw [List.getElem?_eq_none hge] at hgi
        cases hgi
    have : i = j := List.getElem?_inj hlen hnd (by rw [hgi, hgj])
    omega
  refine ⟨hws, ?_, rfl, hbase, ?_, ?_⟩
  · intro hnone
    rw [accessibleRolesWorkspace, hnone]
  · intro hnone
    rw [accessibleRolesBase, if_neg (by simp), hnone]
  · intro i own hnd hi hgi
    constructor
    · intro habs
      obtain ⟨j, hij, hgj⟩ := hws i hi own habs
      exact hown i own hnd hi hgi j hij hgj
    · intro habs
      obtain ⟨j, hij, hgj⟩ := hbase i hi own habs
      exact hown i own hnd hi hgi j hij hgj

/-- Witness for the C8 theorem at a concrete ordered role list
`[owner, creator, editor, viewer]` with a user holding `creator`. -/
theorem accessibleRoles_spec_witness :
    ∀ r ∈ accessibleRolesWorkspace
        [String.toList "owner", String.toList "creator", String.toList "editor",
          String.toList "viewer"] (some [String.toList "creator"]),
      ∃ j, 1 < j ∧
        [String.toList "owner", String.toList "creator", String.toList "editor",
          String.toList "viewer"].get? j = some r :=
  (accessibleRoles_spec
      [String.toList "owner", String.toList "creator", String.toList "editor",
        String.toList "viewer"] (some [String.toList "creator"])).1 1 (by decide)

/-! ## C1: findEnclosingFunction -/

theorem nextFormulaMatchAux_sound (t : List Char) :
    ∀ (fuel s : Nat) (m : FMatch), nextFormulaMatchAux t fuel s = some m →
      matchAt t m.p = some (m.q, m.r) ∧ s ≤ m.p := by
  intro fuel
  induction fuel with
  | zero =>
    intro s m h
    simp [nextFormulaMatchAux] at h
  | succ fuel ih =>
    intro s m h
    rw [nextFormulaMatchAux] at h
    by_cases hs : s < t.length
    · rw [if_pos hs] at h
      rcases hma : matchAt t s with _ | qr
      · rw [hma] at h
        obtain ⟨hq, hle⟩ := ih (s + 1) m h
        exact ⟨hq, by omega⟩
      · rw [hma] at h
        have hm : m = ⟨s, qr.1, qr.2⟩ := by
          cases h
          rfl
        subst hm
        exact ⟨by rw [hma], le_refl s⟩
    · rw [if_neg hs] at h
      cases h

theorem nextFormulaMatch_sound {t : List Char} {s : Nat} {m : FMatch}
    (h : nextFormulaMatch t s = some m) :
    matchAt t m.p = some (m.q, m.r) ∧ s ≤ m.p :=
  nextFormulaMatchAux_sound t (t.length + 1) s m h

theorem scanLoopAux_sound (t : List Char) (off : Nat) (P : FnData → Prop)
    (hnew : ∀ m : FMatch, matchAt t m.p = some (m.q, m.r) → m.p ≤ off →
      P (runMatch t off m)) :
    ∀ (fuel s : Nat) (inQ : Bool) (qL : Nat) (stack : List FnData),
      (∀ f ∈ stack, P f) → ∀ f ∈ scanLoopAux t off fuel s inQ qL stack, P f := by
  intro fuel
  induction fuel with
  | zero =>
    intro s inQ qL stack hstack f hf
    rw [scanLoopAux] at hf
    exact hstack f hf
  | succ fuel ih =>
    intro s inQ qL stack hstack f hf
    rw [scanLoopAux] at hf
    split at hf
    · exact hstack f hf
    · rename_i m hm
      split at hf
      · exact hstack f hf
      · rename_i hoff
        refine ih (m.r + 1) _ _ _ ?_ f hf
        intro g hg
        cases inQ with
        | true => exact hstack g (by simpa using hg)
        | false =>
          simp only [Bool.false_eq_true, if_false, List.mem_append, List.mem_singleton] at hg
          rcases hg with hg | hg
          · exact hstack g hg
          · subst hg
            exact hnew m (nextFormulaMatch_sound hm).1 (by omega)

/-- C1 (amended): `findEnclosingFunction` only ever returns the name of a
function-call token (an identifier at a word boundary, not preceded by a
quote, followed by optional whitespace and an opening parenthesis) that
starts at or before the offset, and it returns null when no such token
starts at or before the offset. -/
theorem findEnclosingFunction_sound (t : List Char) (off : Nat) :
    (∀ nm, findEnclosingFunction t off = some nm →
      ∃ p, p ≤ off ∧ fnTokenAt t p = some nm) ∧
      ((∀ p, p ≤ off → fnTokenAt t p = none) → findEnclosingFunction t off = none) := by
  constructor
  · intro nm hnm
    rw [findEnclosingFunction] at hnm
    obtain ⟨f, hf, hname⟩ := Option.map_eq_some'.mp hnm
    have hmem : f ∈ (scanLoopAux t off (t.length + 1) 0 false 0 []).filter
        fun g => decide (g.start ≤ off) && decide (off ≤ g.stop) :=
      List.mem_of_mem_getLast? (Option.mem_def.mpr hf)
    have hstack : f ∈ scanLoopAux t off (t.length + 1) 0 false 0 [] :=
      List.mem_of_mem_filter hmem
    have hsound := scanLoopAux_sound t off
      (fun g => ∃ p, p ≤ off ∧ fnTokenAt t p = some g.name)
      (fun m hma hmp => ⟨m.p, hmp, by rw [fnTokenAt, hma]; rfl⟩)
      (t.length + 1) 0 false 0 [] (by simp) f hstack
    obtain ⟨p, hp, htok⟩ := hsound
    exact ⟨p, hp, by rw [htok, hname]⟩
  · intro H
    have hstack : scanLoopAux t off (t.length + 1) 0 false 0 [] = [] := by
      rw [scanLoopAux]
      split
      · rfl
      · rename_i m hm
        have hma := (nextFormulaMatch_sound hm).1
        have hoff : off < m.p := by
          by_contra hle
          have hle' : m.p ≤ off := by omega
          have := H m.p hle'
          rw [fnTokenAt, hma] at this
          cases this
        rw [if_pos hoff]
    rw [findEnclosingFunction, hstack]
    rfl

/-- Witness for the C1 amended theorem: on `ADD(x)` with the cursor at
offset 4 the function returns `ADD`, and the theorem places a
function-call token at a position at or before the offset. -/
theorem findEnclosingFunction_sound_witness :
    ∃ p, p ≤ 4 ∧ fnTokenAt (String.toList "ADD(x)") p = some (String.toList "ADD") :=
  (findEnclosingFunction_sound (String.toList "ADD(x)") 4).1 (String.toList "ADD") (by decide)

/-- C1 counterexample: in `F((a) )` with the cursor at offset 6 (on the
balancing close parenthesis of the call `F`), the claim's span for the
call runs from the identifier `F` at 0 to its balancing `)` at index 6,
so the claim demands the enclosing function name `F`; the source instead
deliberately shrinks the span to the end of the inner "child value"
(`(a)`, which ends before the offset), so the call no longer contains the
offset and the function returns null. -/
theorem findEnclosingFunction_counterexample :
    findEnclosingFunction (String.toList "F((a) )") 6 = none ∧
      fnTokenAt (String.toList "F((a) )") 0 = some (String.toList "F") := by
  constructor
  · decide
  · decide

end NocoDb
